import Mathlib

/-!
Verification of the video-trimmer repository (src/main.py) against its
natural-language specification.

The development shallowly embeds the program's components:

* the timecode codec `to_seconds` / `seconds_to_timecode` (regex-based
  parsing of `H+:MM:SS(.mmm)` and formatting back), both in exact rational
  semantics and, where rounding matters, in bit-faithful binary64 semantics;
* the progress aggregation of `QtLogger.callback` (proglog bars reduced to a
  single integer percent);
* the background job `TrimWorker.run` as a trace of collaborator calls and
  terminal notifications over an abstract environment;
* the pre-submission validation of `MainWindow.start_trim` and the terminal
  handler `MainWindow.on_finished`.

Python floats are modelled as the exact rational values of IEEE-754 binary64
numbers; `round64` below is round-to-nearest, ties-to-even at 53 bits of
precision (overflow and subnormals never arise at the magnitudes used here).

Batteries marks the arithmetic on `Rat` as irreducible, which would prevent
evaluating the executable definitions below inside proofs; restore the
default reducibility so that `decide` can compute with rational numbers.
-/

set_option maxRecDepth 1000000

set_option maxHeartbeats 1000000

set_option allowUnsafeReducibility true

attribute [semireducible] Rat.add Rat.sub Rat.mul Rat.inv Rat.ofScientific

/-- Floor of log base 2 on naturals, by fuel-bounded structural recursion
(so that it reduces inside the kernel); `log2F f n = Nat.log 2 n` whenever
`n < 2 ^ f`. -/
def log2F : ℕ → ℕ → ℕ
  | 0, _ => 0
  | f + 1, n => if n < 2 then 0 else 1 + log2F f (n / 2)

/-- Floor of log base 2 of a positive rational `a / b`: scale `a` up by
`2 ^ t` with `2 ^ t > b`, so that `(a * 2 ^ t) / b ≥ 1`, take the natural
floor-log of the integer quotient and shift back by `t`. -/
def floorLog2Q (q : ℚ) : ℤ :=
  let a := q.num.toNat
  let b := q.den
  let t := log2F 4096 b + 1
  (log2F 4096 ((a * 2 ^ t) / b) : ℤ) - t

/-- Round a rational to the nearest integer, ties to even
(the rounding used by IEEE-754 binary64 and by CPython's float formatting). -/
def rhe (q : ℚ) : ℤ :=
  let f := ⌊q⌋
  let r := q - (f : ℚ)
  if r < 1/2 then f
  else if 1/2 < r then f + 1
  else if f % 2 = 0 then f else f + 1

/-- Integer powers of two as positive rationals. -/
def pow2 (e : ℤ) : ℚ :=
  if 0 ≤ e then ((2 ^ e.toNat : ℕ) : ℚ) else (((2 ^ (-e).toNat : ℕ) : ℚ))⁻¹

/-- Binary64 rounding of a positive rational: scale into the 53-bit
significand range `[2^52, 2^53)`, round to nearest (ties to even), and
scale back. -/
def round64pos (q : ℚ) : ℚ :=
  let e : ℤ := floorLog2Q q - 52
  (rhe (q * pow2 (-e)) : ℚ) * pow2 e

/-- Binary64 round-to-nearest-even of an exact rational.  Faithful to
IEEE-754 for all normal, non-overflowing values, which covers every quantity
appearing in this program. -/
def round64 (q : ℚ) : ℚ :=
  if q = 0 then 0
  else if 0 < q then round64pos q
  else -(round64pos (-q))

/-- Python's `int(x)` on a float: truncation toward zero. -/
def pyTrunc (q : ℚ) : ℤ := if 0 ≤ q then ⌊q⌋ else -⌊-q⌋

/-- C `fmod` on binary64 values: the remainder `x - y * trunc(x / y)`.
The hardware computes it exactly, so no rounding is applied. -/
def fmodQ (x y : ℚ) : ℚ := x - y * (pyTrunc (x / y) : ℚ)

/-- Python `%` with a positive modulus in exact-rational semantics
(for nonnegative `x` it agrees with `fmodQ`). -/
def pyMod (x y : ℚ) : ℚ := x - y * (⌊x / y⌋ : ℚ)

/-- Binary64 addition: round the exact sum. -/
def fadd (x y : ℚ) : ℚ := round64 (x + y)

/-- Binary64 subtraction: round the exact difference. -/
def fsub (x y : ℚ) : ℚ := round64 (x - y)

/-- Binary64 multiplication: round the exact product. -/
def fmul (x y : ℚ) : ℚ := round64 (x * y)

/-- Binary64 division: round the exact quotient.  CPython's true division
of two ints is correctly rounded as well, so it is also this. -/
def fdiv (x y : ℚ) : ℚ := round64 (x / y)

/-- CPython float floor division (`float_divmod` in floatobject.c) for
nonnegative operands: `mod = fmod(vx, wx); div = (vx - mod) / wx`, then
`floor(div)` with a `+1` correction when `div - floor(div) > 0.5`, and a
zero result when `div == 0`. -/
def ffloordiv (vx wx : ℚ) : ℚ :=
  let md := fmodQ vx wx
  let dv := fdiv (fsub vx md) wx
  if dv = 0 then 0
  else
    let fd := (⌊dv⌋ : ℚ)
    if 1/2 < dv - fd then fd + 1 else fd

/-! ## Decimal digit strings -/

/-- Numeric value of a decimal digit character. -/
def digitVal (c : Char) : ℕ := c.toNat - 48

/-- Little-endian decimal digits of a natural number, by fuel-bounded
structural recursion; agrees with `Nat.digits 10` when `n < 10 ^ fuel`. -/
def digitsF : ℕ → ℕ → List ℕ
  | 0, _ => []
  | f + 1, n => if n = 0 then [] else n % 10 :: digitsF f (n / 10)

/-- Decimal rendering of a natural number (empty for zero, as in the
little-endian digit list convention). -/
def charsOfNat (n : ℕ) : List Char := (digitsF (n + 1) n).reverse.map Nat.digitChar

/-- Value of a big-endian decimal digit string. -/
def natOfChars (l : List Char) : ℕ := l.foldl (fun a c => 10 * a + digitVal c) 0

/-- Python's zero-padded decimal formatting `f"{n:0wd}"` for natural `n`. -/
def padNat (w n : ℕ) : List Char :=
  List.replicate (w - (charsOfNat n).length) '0' ++ charsOfNat n

/-- Python's zero-padded decimal formatting `f"{n:0wd}"` for integer `n`
(the sign occupies one column of the field width). -/
def padInt (w : ℕ) (n : ℤ) : List Char :=
  if n < 0 then '-' :: padNat (w - 1) n.natAbs else padNat w n.natAbs

/-! ## The timecode codec (src/main.py lines 50-66) -/

/-- Characters stripped by Python's `str.strip()` (the ASCII whitespace
relevant to timecodes; the inputs of interest contain no exotic Unicode
whitespace). -/
def isPySpace (c : Char) : Bool :=
  c = ' ' || c = '\t' || c = '\n' || c = '\r' || c = '\x0b' || c = '\x0c'

/-- Python's `str.strip()`: drop leading and trailing whitespace. -/
def pyStrip (l : List Char) : List Char :=
  ((l.dropWhile isPySpace).reverse.dropWhile isPySpace).reverse

/-- Fields matched by `TIME_PATTERN`: hour digits value, two-digit minutes,
two-digit whole seconds, and the value of the optional fractional part. -/
structure TCParts where
  hours : ℕ
  minutes : ℕ
  secsInt : ℕ
  frac : ℚ
deriving DecidableEq

/-- Match of the optional regex group `(\.\d{1,3})?` against the tail of the
input, returning the fractional value. -/
def fracVal : List Char → Option ℚ
  | [] => some 0
  | '.' :: ds =>
      if 1 ≤ ds.length ∧ ds.length ≤ 3 ∧ ds.all Char.isDigit = true then
        some ((natOfChars ds : ℚ) / (10 ^ ds.length))
      else none
  | _ => none

/-- Full match of `TIME_PATTERN = ^(\d+):(\d{2}):(\d{2}(?:\.\d{1,3})?)$`
against a character list: a nonempty run of digits, a colon, exactly two
digits, a colon, exactly two digits and an optional 1-3 digit fraction. -/
def timecodeParts (l : List Char) : Option TCParts :=
  let hd := l.takeWhile Char.isDigit
  match l.dropWhile Char.isDigit with
  | ':' :: m1 :: m2 :: ':' :: s1 :: s2 :: tl =>
      if hd ≠ [] ∧ m1.isDigit = true ∧ m2.isDigit = true ∧
          s1.isDigit = true ∧ s2.isDigit = true then
        (fracVal tl).map (fun fr =>
          ⟨natOfChars hd, 10 * digitVal m1 + digitVal m2,
           10 * digitVal s1 + digitVal s2, fr⟩)
      else none
  | _ => none

/-- Exact-arithmetic model of `to_seconds` (src/main.py line 53):
`int(h) * 3600 + int(mnt) * 60 + float(sec)` with the arithmetic read over
the rationals. -/
def to_seconds (s : String) : Option ℚ :=
  (timecodeParts (pyStrip s.data)).map
    (fun p => ((p.hours * 3600 + p.minutes * 60 + p.secsInt : ℕ) : ℚ) + p.frac)

/-- Bit-faithful binary64 model of `to_seconds`: the integer part
`int(h) * 3600 + int(mnt) * 60` is exact Python-int arithmetic, which is then
converted to float and added to the correctly rounded `float(sec)`. -/
def to_seconds_f64 (s : String) : Option ℚ :=
  (timecodeParts (pyStrip s.data)).map
    (fun p => fadd (round64 ((p.hours * 3600 + p.minutes * 60 : ℕ) : ℚ))
                   (round64 ((p.secsInt : ℚ) + p.frac)))

/-- Python's `f"{s:06.3f}"` for the nonnegative values arising at its call
site: the value rounded to three decimals (ties to even, as CPython's float
formatting does), zero-padded to a total width of six. -/
def fmt063 (s : ℚ) : List Char :=
  let ms := (rhe (1000 * s)).toNat
  let body := padNat 1 (ms / 1000) ++ '.' :: padNat 3 (ms % 1000)
  List.replicate (6 - body.length) '0' ++ body

/-- Exact-arithmetic model of `seconds_to_timecode` (src/main.py lines
62-66): `h = int(seconds // 3600)`, `m = int((seconds % 3600) // 60)`,
`s = seconds % 60`, rendered with the fractional part present exactly when
`s % 1` is nonzero. -/
def seconds_to_timecode_chars (q : ℚ) : List Char :=
  let h := ⌊q / 3600⌋
  let m := ⌊(pyMod q 3600) / 60⌋
  let s := pyMod q 60
  if pyMod s 1 = 0 then
    padInt 2 h ++ ':' :: padInt 2 m ++ ':' :: padInt 2 (pyTrunc s)
  else
    padInt 2 h ++ ':' :: padInt 2 m ++ ':' :: fmt063 s

/-- String-valued wrapper of `seconds_to_timecode_chars`. -/
def seconds_to_timecode (q : ℚ) : String := ⟨seconds_to_timecode_chars q⟩

/-- Bit-faithful binary64 model of `seconds_to_timecode`: floor division and
remainder follow CPython float semantics (`ffloordiv` / `fmodQ`). -/
def seconds_to_timecode_f64_chars (q : ℚ) : List Char :=
  let h := pyTrunc (ffloordiv q 3600)
  let m := pyTrunc (ffloordiv (fmodQ q 3600) 60)
  let s := fmodQ q 60
  if fmodQ s 1 = 0 then
    padInt 2 h ++ ':' :: padInt 2 m ++ ':' :: padInt 2 (pyTrunc s)
  else
    padInt 2 h ++ ':' :: padInt 2 m ++ ':' :: fmt063 s

/-- String-valued wrapper of `seconds_to_timecode_f64_chars`. -/
def seconds_to_timecode_f64 (q : ℚ) : String := ⟨seconds_to_timecode_f64_chars q⟩

/-! ## The progress aggregator (QtLogger, src/main.py lines 69-86)

The proglog base class keeps a dictionary `self.bars` of named phase bars,
each holding the latest reported `index` and `total`; `callback` first lets
the base class record the changes and then reduces the bars to one percent.
The bar bookkeeping itself lives in the external proglog package, modelled
here from the spec's description of `update`: the latest snapshot for a
named phase records or overwrites that phase's entry. -/

/-- Latest snapshot of one proglog bar. -/
structure Bar where
  index : ℕ
  total : ℕ
deriving DecidableEq

/-- The `self.bars` dictionary: association list in insertion order. -/
abbrev Bars := List (String × Bar)

/-- Record or overwrite the snapshot of the named bar. -/
def setBar (bs : Bars) (n : String) (b : Bar) : Bars :=
  if bs.any (fun p => p.1 == n) then
    bs.map (fun p => if p.1 == n then (n, b) else p)
  else bs ++ [(n, b)]

/-- The weight `b["total"] or b["index"]` of one bar: a bar with zero
(unknown) total counts as its own index. -/
def barWeight (b : Bar) : ℕ := if b.total = 0 then b.index else b.total

/-- The numerator `sum(min(b["index"], b["total"] or b["index"]))` from
`QtLogger.callback`. -/
def completed (bs : Bars) : ℕ :=
  (bs.map (fun p => min p.2.index (barWeight p.2))).sum

/-- The sum `sum(b["total"] or b["index"])` before the `or 1` default. -/
def grandTotalRaw (bs : Bars) : ℕ := (bs.map (fun p => barWeight p.2)).sum

/-- The denominator `sum(...) or 1` from `QtLogger.callback`. -/
def grandTotal (bs : Bars) : ℕ :=
  if grandTotalRaw bs = 0 then 1 else grandTotalRaw bs

/-- The emitted value `int(completed / grand_total * 100)`: CPython true
division of two ints is a correctly rounded binary64, the multiplication by
100 is a binary64 multiplication, and `int` truncates. -/
def percent (bs : Bars) : ℤ :=
  pyTrunc (fmul (fdiv ((completed bs : ℕ) : ℚ) ((grandTotal bs : ℕ) : ℚ)) 100)

/-- One run of `QtLogger.callback` after the bars have been brought to state
`bs`: with no bars yet, nothing is emitted; otherwise the recomputed percent
is emitted unconditionally. -/
def callbackEmit (bs : Bars) : List ℤ :=
  if bs.isEmpty then [] else [percent bs]

/-- One progress snapshot `(phase_name, current_index, total)`. -/
structure Snapshot where
  name : String
  index : ℕ
  total : ℕ
deriving DecidableEq

/-- Apply one snapshot to the bars (proglog's bookkeeping, modelled from the
spec: records/overwrites the latest snapshot for that named phase). -/
def applySnapshot (bs : Bars) (u : Snapshot) : Bars :=
  setBar bs u.name ⟨u.index, u.total⟩

/-- The percents emitted by a sequence of updates delivered to `QtLogger`
starting from bars state `bs`. -/
def runUpdates : Bars → List Snapshot → List ℤ
  | _, [] => []
  | bs, u :: us =>
      let bs2 := applySnapshot bs u
      callbackEmit bs2 ++ runUpdates bs2 us

/-! ## The background worker (TrimWorker, src/main.py lines 89-116) -/

/-- The opened source media handle; only its duration is consulted. -/
structure Clip where
  duration : ℚ
deriving DecidableEq

/-- Observable events of one `TrimWorker.run`: opening the source,
invoking `subclipped` with the resolved interval, invoking
`write_videofile`, releasing the handle (never emitted by this code), and
the terminal `finished` signal. -/
inductive TrimEv where
  | openOk
  | subclip (startT endT : ℚ)
  | writeFile (dst : String)
  | closeClip
  | finished (ok : Bool) (msg : String)
deriving DecidableEq

/-- Outcomes of the three external collaborator calls made by `run`:
`VideoFileClip(...)`, `clip.subclipped(...)` and `sub.write_videofile(...)`;
an `error` carries the exception's string. -/
structure TrimEnv where
  openRes : Except String Clip
  subclipRes : Except String Unit
  writeRes : Except String Unit

/-- The fields of a `TrimWorker`. -/
structure TrimWorker where
  src : String
  dst : String
  start_time : ℚ
  end_time : ℚ
deriving DecidableEq

/-- Trace semantics of `TrimWorker.run`: everything runs inside one
`try/except`; the first raising call short-circuits to the except branch,
which emits `finished(False, str(e))`; a clean pass emits
`finished(True, "Done!")`.  The end time is clamped to the clip duration
before `subclipped` is invoked; the start time is passed through. -/
def TrimWorker.run (w : TrimWorker) (env : TrimEnv) : List TrimEv :=
  match env.openRes with
  | .error e => [.finished false e]
  | .ok clip =>
      let endT := if clip.duration < w.end_time then clip.duration else w.end_time
      TrimEv.openOk :: TrimEv.subclip w.start_time endT ::
        match env.subclipRes with
        | .error e => [.finished false e]
        | .ok _ =>
            match env.writeRes with
            | .error e => [.writeFile w.dst, .finished false e]
            | .ok _ => [.writeFile w.dst, .finished true "Done!"]

/-- The `finished` signals of a trace, in order. -/
def finishedEvents (tr : List TrimEv) : List (Bool × String) :=
  tr.filterMap fun e =>
    match e with
    | .finished ok m => some (ok, m)
    | _ => none

/-- The `subclipped` invocations of a trace, in order. -/
def subclipCalls (tr : List TrimEv) : List (ℚ × ℚ) :=
  tr.filterMap fun e =>
    match e with
    | .subclip a b => some (a, b)
    | _ => none

/-- The number of handle-release events of a trace. -/
def closeCalls (tr : List TrimEv) : ℕ :=
  (tr.filter fun e =>
    match e with
    | TrimEv.closeClip => true
    | _ => false).length

/-! ## The interactive window (MainWindow, src/main.py lines 119-236) -/

/-- Truthiness of a `pathlib.Path`: `PurePath` defines no `__bool__`, so
every `Path` instance is truthy — including `Path("")`, which is
`PosixPath(".")`.  The argument is the text the path was built from. -/
def pyPathTruthy (_t : String) : Bool := true

/-- Rendering of `Path(t)` back to text for the inputs arising here:
`Path("")` prints as `"."`; other normalizations do not matter for the
claims under study. -/
def pyPathStr (t : String) : String := if t = "" then "." else t

/-- The `MainWindow` state consulted and mutated by `start_trim` and
`on_finished`: the chosen source path, the three line-edit texts, the Trim
button's enabled flag, the progress bar value and the `self.worker` slot. -/
structure MainWindow where
  video_path : Option String
  out_text : String
  start_text : String
  end_text : String
  trim_enabled : Bool
  progressVal : ℕ
  worker : Option TrimWorker
deriving DecidableEq

/-- Result of one `start_trim` call: either an error dialog with its
message (and no worker), or a created-and-started worker. -/
inductive StartResult where
  | errorMsg (msg : String)
  | started (w : TrimWorker)
deriving DecidableEq

/-- Model of `MainWindow.start_trim` (src/main.py lines 197-222).
`fsExists` answers `Path.exists()`.  Note `output = Path(text.strip())` is
always truthy, so the `if not output` branch is dead code: an empty output
text produces `Path("")` (= `PosixPath(".")`) and a worker is started. -/
def start_trim (fsExists : String → Bool) (st : MainWindow) :
    StartResult × MainWindow :=
  match st.video_path with
  | none => (.errorMsg "Please select a source video first.", st)
  | some vp =>
      if fsExists vp = false then
        (.errorMsg "Please select a source video first.", st)
      else
        let outT : String := ⟨pyStrip st.out_text.data⟩
        if pyPathTruthy outT = false then
          (.errorMsg "Please specify an output file path.", st)
        else
          match to_seconds st.start_text with
          | none => (.errorMsg "Timecode must be HH:MM:SS or HH:MM:SS.mmm", st)
          | some startSec =>
              match to_seconds st.end_text with
              | none => (.errorMsg "Timecode must be HH:MM:SS or HH:MM:SS.mmm", st)
              | some endSec =>
                  if endSec ≤ startSec then
                    (.errorMsg "End time must be greater than start time.", st)
                  else
                    let w : TrimWorker := ⟨vp, pyPathStr outT, startSec, endSec⟩
                    (.started w,
                     { st with trim_enabled := false, progressVal := 0,
                               worker := some w })

/-- Model of `MainWindow.on_finished` (src/main.py lines 224-232): the Trim
button is re-enabled, the progress bar is set to 100 on success and reset to
0 on failure.  The `self.worker` slot is not cleared. -/
def on_finished (st : MainWindow) (ok : Bool) (_msg : String) : MainWindow :=
  if ok then { st with trim_enabled := true, progressVal := 100 }
  else { st with trim_enabled := true, progressVal := 0 }

/-- A click on the Trim button: Qt delivers `clicked` (and hence invokes the
`start_trim` slot) only while the button is enabled. -/
def click_trim (fsExists : String → Bool) (st : MainWindow) : MainWindow :=
  if st.trim_enabled then (start_trim fsExists st).2 else st

/-! ## Lemmas about decimal digit strings -/

theorem digitsF_eq_digits : ∀ (f n : ℕ), n < 10 ^ f → digitsF f n = Nat.digits 10 n := by
  intro f
  induction f with
  | zero =>
      intro n h
      have : n = 0 := by simpa using h
      subst this
      simp [digitsF]
  | succ f ih =>
      intro n h
      by_cases hn : n = 0
      · subst hn; simp [digitsF]
      · rw [digitsF, if_neg hn,
          Nat.digits_def' (by norm_num : (1 : ℕ) < 10) (Nat.pos_of_ne_zero hn)]
        congr 1
        exact ih _ ((Nat.div_lt_iff_lt_mul (by norm_num)).2 (by rw [← pow_succ]; exact h))

theorem charsOfNat_eq (n : ℕ) :
    charsOfNat n = (Nat.digits 10 n).reverse.map Nat.digitChar := by
  unfold charsOfNat
  rw [digitsF_eq_digits (n + 1) n
    (lt_of_lt_of_le (Nat.lt_pow_self (by norm_num) n)
      (Nat.pow_le_pow_right (by norm_num) (Nat.le_succ n)))]

theorem natOfChars_foldl (l : List Char) (a : ℕ) :
    l.foldl (fun a c => 10 * a + digitVal c) a = a * 10 ^ l.length + natOfChars l := by
  induction l generalizing a with
  | nil => simp [natOfChars]
  | cons c tl ih =>
      simp only [List.foldl_cons, List.length_cons, natOfChars]
      rw [ih, ih (10 * 0 + digitVal c)]
      ring

theorem natOfChars_append (l1 l2 : List Char) :
    natOfChars (l1 ++ l2) = natOfChars l1 * 10 ^ l2.length + natOfChars l2 := by
  unfold natOfChars
  rw [List.foldl_append, natOfChars_foldl]
  rfl

theorem natOfChars_singleton (c : Char) : natOfChars [c] = digitVal c := by
  simp [natOfChars]

theorem natOfChars_zeros (k : ℕ) : natOfChars (List.replicate k '0') = 0 := by
  induction k with
  | zero => rfl
  | succ k ih =>
      have : natOfChars (List.replicate (k + 1) '0') = natOfChars (List.replicate k '0') := by
        simp [natOfChars, List.replicate_succ, digitVal]
      rw [this, ih]

theorem natOfChars_zeros_append (k : ℕ) (l : List Char) :
    natOfChars (List.replicate k '0' ++ l) = natOfChars l := by
  rw [natOfChars_append, natOfChars_zeros]
  ring

theorem digitVal_digitChar {d : ℕ} (h : d < 10) : digitVal (Nat.digitChar d) = d := by
  interval_cases d <;> decide

theorem isDigit_digitChar {d : ℕ} (h : d < 10) : (Nat.digitChar d).isDigit = true := by
  interval_cases d <;> decide

theorem natOfChars_rev_map (ds : List ℕ) (h : ∀ d ∈ ds, d < 10) :
    natOfChars (ds.reverse.map Nat.digitChar) = Nat.ofDigits 10 ds := by
  induction ds with
  | nil => rfl
  | cons d tl ih =>
      have hd : d < 10 := h d (List.mem_cons_self d tl)
      have htl : ∀ x ∈ tl, x < 10 := fun x hx => h x (List.mem_cons_of_mem d hx)
      rw [List.reverse_cons, List.map_append, natOfChars_append, ih htl]
      simp only [List.map_cons, List.map_nil, natOfChars_singleton,
        List.length_cons, List.length_nil, digitVal_digitChar hd, Nat.ofDigits_cons]
      push_cast
      ring

theorem natOfChars_charsOfNat (n : ℕ) : natOfChars (charsOfNat n) = n := by
  rw [charsOfNat_eq,
    natOfChars_rev_map _ (fun d hd => Nat.digits_lt_base (by norm_num) hd),
    Nat.ofDigits_digits]

theorem charsOfNat_all_digit (n : ℕ) : ∀ c ∈ charsOfNat n, c.isDigit = true := by
  rw [charsOfNat_eq]
  intro c hc
  rcases List.mem_map.1 hc with ⟨d, hd, rfl⟩
  exact isDigit_digitChar (Nat.digits_lt_base (by norm_num) (List.mem_reverse.1 hd))

theorem charsOfNat_length_le {n k : ℕ} (h : n < 10 ^ k) : (charsOfNat n).length ≤ k := by
  rw [charsOfNat_eq]
  simp only [List.length_map, List.length_reverse]
  by_cases hn : n = 0
  · subst hn; simp
  · rw [Nat.digits_len 10 n (by norm_num) hn]
    exact Nat.log_lt_of_lt_pow hn h

theorem natOfChars_padNat (w n : ℕ) : natOfChars (padNat w n) = n := by
  unfold padNat
  rw [natOfChars_zeros_append, natOfChars_charsOfNat]

theorem padNat_length (w n : ℕ) : (padNat w n).length = max w (charsOfNat n).length := by
  simp only [padNat, List.length_append, List.length_replicate]
  omega

theorem padNat_length_of_lt {w n : ℕ} (h : n < 10 ^ w) : (padNat w n).length = w := by
  rw [padNat_length, Nat.max_eq_left (charsOfNat_length_le h)]

theorem padNat_all_digit (w n : ℕ) : ∀ c ∈ padNat w n, c.isDigit = true := by
  intro c hc
  rcases List.mem_append.1 hc with h | h
  · rw [List.eq_of_mem_replicate h]; decide
  · exact charsOfNat_all_digit n c h

/-! ## Lemmas about the rational and binary64 arithmetic models -/

theorem rhe_intCast (n : ℤ) : rhe (n : ℚ) = n := by
  unfold rhe
  norm_num

theorem rhe_floor_le (q : ℚ) : ⌊q⌋ ≤ rhe q := by
  unfold rhe
  dsimp only
  split_ifs <;> omega

theorem rhe_le_floor_add_one (q : ℚ) : rhe q ≤ ⌊q⌋ + 1 := by
  unfold rhe
  dsimp only
  split_ifs <;> omega

theorem rhe_nonneg {q : ℚ} (h : 0 ≤ q) : 0 ≤ rhe q :=
  le_trans (Int.floor_nonneg.2 h) (rhe_floor_le q)

theorem pow2_eq_zpow (e : ℤ) : pow2 e = (2 : ℚ) ^ e := by
  unfold pow2
  split_ifs with h
  · rw [Nat.cast_pow, ← zpow_natCast, Int.toNat_of_nonneg h]
    norm_num
  · rw [Nat.cast_pow, ← zpow_natCast, Int.toNat_of_nonneg (by omega : (0 : ℤ) ≤ -e),
      ← zpow_neg, neg_neg]
    norm_num

theorem pow2_pos (e : ℤ) : 0 < pow2 e := by
  rw [pow2_eq_zpow]
  positivity

theorem pow2_neg_mul_pow2 (e : ℤ) : pow2 (-e) * pow2 e = 1 := by
  rw [pow2_eq_zpow, pow2_eq_zpow, ← zpow_add₀ (by norm_num : (2 : ℚ) ≠ 0)]
  simp

theorem round64pos_int {q : ℚ} (n : ℤ)
    (hn : q * pow2 (-(floorLog2Q q - 52)) = (n : ℚ)) : round64pos q = q := by
  unfold round64pos
  dsimp only
  rw [hn, rhe_intCast, ← hn, mul_assoc, pow2_neg_mul_pow2, mul_one]

theorem log2F_eq_log : ∀ (f n : ℕ), n < 2 ^ f → log2F f n = Nat.log 2 n := by
  intro f
  induction f with
  | zero =>
      intro n h
      have : n = 0 := by simpa using h
      subst this
      simp [log2F]
  | succ f ih =>
      intro n h
      by_cases hn : n < 2
      · rw [log2F, if_pos hn]
        interval_cases n <;> simp
      · rw [log2F, if_neg hn,
          ih _ ((Nat.div_lt_iff_lt_mul (by norm_num)).2 (by rw [← pow_succ]; exact h)),
          Nat.log_div_base 2 n]
        have h2 : 0 < Nat.log 2 n := Nat.log_pos (by norm_num) (by omega)
        omega

theorem floorLog2Q_natCast {n : ℕ} (hn : 0 < n) (hbig : 2 * n < 2 ^ 4096) :
    floorLog2Q (n : ℚ) = Nat.log 2 n := by
  unfold floorLog2Q
  rw [Rat.num_natCast, Rat.den_natCast]
  simp only [Int.toNat_natCast, Nat.div_one]
  rw [log2F_eq_log 4096 1 (by norm_num), Nat.log_one_right]
  rw [log2F_eq_log 4096 (n * 2 ^ (0 + 1)) (by simpa [Nat.mul_comm] using hbig)]
  rw [pow_one, Nat.log_mul_base (by norm_num) (by omega)]
  push_cast
  ring

theorem round64_natCast {n : ℕ} (h : n < 2 ^ 53) : round64 (n : ℚ) = n := by
  by_cases hn : n = 0
  · subst hn; simp [round64]
  · have hpos : 0 < n := Nat.pos_of_ne_zero hn
    have hq0 : ((n : ℚ)) ≠ 0 := Nat.cast_ne_zero.2 hn
    have hqpos : 0 < (n : ℚ) := Nat.cast_pos.2 hpos
    have hlog : Nat.log 2 n ≤ 52 := by
      have := Nat.log_lt_of_lt_pow hn h
      omega
    have hbig : 2 * n < 2 ^ 4096 :=
      lt_of_lt_of_le (by omega : 2 * n < 2 ^ 54)
        (Nat.pow_le_pow_right (by norm_num) (by norm_num))
    have hFL : floorLog2Q (n : ℚ) = Nat.log 2 n := floorLog2Q_natCast hpos hbig
    unfold round64
    rw [if_neg hq0, if_pos hqpos]
    apply round64pos_int ((n * 2 ^ (52 - Nat.log 2 n) : ℕ) : ℤ)
    rw [hFL, pow2_eq_zpow]
    have he : -((Nat.log 2 n : ℤ) - 52) = ((52 - Nat.log 2 n : ℕ) : ℤ) := by omega
    rw [he, zpow_natCast]
    push_cast
    ring

theorem round64_intCast {n : ℤ} (h0 : 0 ≤ n) (h : n < 2 ^ 53) : round64 (n : ℚ) = n := by
  have h1 : ((n.toNat : ℕ) : ℚ) = (n : ℚ) := by
    exact_mod_cast congrArg (fun z : ℤ => (z : ℚ)) (Int.toNat_of_nonneg h0)
  have h2 : n.toNat < 2 ^ 53 := by omega
  rw [← h1, round64_natCast h2, h1]

theorem round64_nonneg {q : ℚ} (h : 0 ≤ q) : 0 ≤ round64 q := by
  unfold round64
  split_ifs with h0 h1
  · exact le_refl 0
  · unfold round64pos
    dsimp only
    have hr : (0 : ℤ) ≤ rhe (q * pow2 (-(floorLog2Q q - 52))) :=
      rhe_nonneg (mul_nonneg h (pow2_pos _).le)
    exact mul_nonneg (by exact_mod_cast hr) (pow2_pos _).le
  · exact absurd (lt_of_le_of_ne h (Ne.symm h0)) h1

theorem pyTrunc_of_nonneg {q : ℚ} (h : 0 ≤ q) : pyTrunc q = ⌊q⌋ := if_pos h

theorem pyMod_eq_fract (x y : ℚ) (hy : y ≠ 0) : pyMod x y = y * Int.fract (x / y) := by
  unfold pyMod Int.fract
  field_simp

theorem pyMod_nonneg {x y : ℚ} (hy : 0 < y) : 0 ≤ pyMod x y := by
  rw [pyMod_eq_fract x y hy.ne.symm]
  exact mul_nonneg hy.le (Int.fract_nonneg _)

theorem pyMod_lt {x y : ℚ} (hy : 0 < y) : pyMod x y < y := by
  rw [pyMod_eq_fract x y hy.ne.symm]
  calc y * Int.fract (x / y) < y * 1 := by
        exact mul_lt_mul_of_pos_left (Int.fract_lt_one _) hy
    _ = y := mul_one y

theorem pyMod_decompose (x y : ℚ) : y * (⌊x / y⌋ : ℚ) + pyMod x y = x := by
  unfold pyMod
  ring

theorem fmodQ_eq_pyMod {x y : ℚ} (hx : 0 ≤ x) (hy : 0 < y) : fmodQ x y = pyMod x y := by
  unfold fmodQ pyMod
  rw [pyTrunc_of_nonneg (div_nonneg hx hy.le)]

theorem pyMod_sub_int_mul (x y : ℚ) (n : ℤ) : pyMod (x - y * n) y = pyMod x y := by
  by_cases hy : y = 0
  · simp [pyMod, hy]
  · unfold pyMod
    have hq : (x - y * n) / y = x / y - n := by
      field_simp
    rw [hq, Int.floor_sub_int]
    push_cast
    ring

theorem pyMod_3600_60 (x : ℚ) : pyMod (pyMod x 3600) 60 = pyMod x 60 := by
  have h : pyMod x 3600 = x - 60 * ((60 * ⌊x / 3600⌋ : ℤ) : ℚ) := by
    unfold pyMod
    push_cast
    ring
  rw [h, pyMod_sub_int_mul]

theorem ffloordiv_small60 {r : ℚ} (h0 : 0 ≤ r) (h1 : r < 3600) :
    ffloordiv r 60 = (⌊r / 60⌋ : ℚ) := by
  have hk0 : 0 ≤ ⌊r / 60⌋ := Int.floor_nonneg.2 (div_nonneg h0 (by norm_num))
  have hklt : ⌊r / 60⌋ < 60 := by
    refine Int.floor_lt.2 ?_
    rw [div_lt_iff (by norm_num : (0:ℚ) < 60)]
    push_cast
    linarith
  set k := ⌊r / 60⌋ with hk
  have hmd : fmodQ r 60 = pyMod r 60 := fmodQ_eq_pyMod h0 (by norm_num)
  have hsub : r - fmodQ r 60 = ((60 * k : ℤ) : ℚ) := by
    rw [hmd]
    unfold pyMod
    rw [hk]
    push_cast
    ring
  have hfs : fsub r (fmodQ r 60) = ((60 * k : ℤ) : ℚ) := by
    unfold fsub
    rw [hsub, round64_intCast (by omega) (by omega)]
  have hdivq : (((60 * k : ℤ) : ℚ)) / 60 = ((k : ℤ) : ℚ) := by
    push_cast
    field_simp
  have hdv : fdiv (fsub r (fmodQ r 60)) 60 = ((k : ℤ) : ℚ) := by
    unfold fdiv
    rw [hfs, hdivq, round64_intCast hk0 (by omega)]
  unfold ffloordiv
  dsimp only
  rw [hdv]
  by_cases hkz : ((k : ℤ) : ℚ) = 0
  · rw [if_pos hkz, hkz]
  · rw [if_neg hkz, Int.floor_intCast]
    rw [if_neg (by norm_num : ¬(1/2 : ℚ) < ((k : ℤ) : ℚ) - ((k : ℤ) : ℚ))]

theorem ffloordiv_nonneg {x y : ℚ} (hx : 0 ≤ x) (hy : 0 < y) : 0 ≤ ffloordiv x y := by
  have hmd : fmodQ x y = pyMod x y := fmodQ_eq_pyMod hx hy
  have hdiff : x - fmodQ x y = y * ((⌊x / y⌋ : ℤ) : ℚ) := by
    rw [hmd]
    unfold pyMod
    ring
  have hsub0 : 0 ≤ x - fmodQ x y := by
    rw [hdiff]
    exact mul_nonneg hy.le (by exact_mod_cast Int.floor_nonneg.2 (div_nonneg hx hy.le))
  have hfs : 0 ≤ fsub x (fmodQ x y) := round64_nonneg hsub0
  have hdv : 0 ≤ fdiv (fsub x (fmodQ x y)) y := round64_nonneg (div_nonneg hfs hy.le)
  have hfl : (0 : ℚ) ≤ ((⌊fdiv (fsub x (fmodQ x y)) y⌋ : ℤ) : ℚ) := by
    exact_mod_cast Int.floor_nonneg.2 hdv
  unfold ffloordiv
  dsimp only
  split_ifs
  · exact le_refl 0
  · linarith
  · exact hfl

/-! ## Lemmas about characters and timecode strings -/

theorem digitVal_le_of_isDigit {c : Char} (h : c.isDigit = true) : digitVal c ≤ 9 := by
  unfold digitVal
  simp only [Char.isDigit] at h
  rw [Bool.and_eq_true, decide_eq_true_eq, decide_eq_true_eq] at h
  have h1 : c.toNat ≤ 57 := h.2
  omega

theorem isPySpace_of_digit {c : Char} (h : c.isDigit = true) : isPySpace c = false := by
  unfold isPySpace
  simp only [Bool.or_eq_false_iff, decide_eq_false_iff_not]
  refine ⟨⟨⟨⟨⟨?_, ?_⟩, ?_⟩, ?_⟩, ?_⟩, ?_⟩ <;>
    · intro hc
      subst hc
      exact absurd h (by decide)

theorem natOfChars_pair (c1 c2 : Char) :
    natOfChars [c1, c2] = 10 * digitVal c1 + digitVal c2 := by
  simp [natOfChars]

theorem natOfChars_lt {l : List Char} (h : ∀ c ∈ l, c.isDigit = true) :
    natOfChars l < 10 ^ l.length := by
  induction l with
  | nil => simp [natOfChars]
  | cons c tl ih =>
      have hc := digitVal_le_of_isDigit (h c (List.mem_cons_self c tl))
      have htl := ih (fun x hx => h x (List.mem_cons_of_mem c hx))
      have : natOfChars (c :: tl) = digitVal c * 10 ^ tl.length + natOfChars tl := by
        have := natOfChars_foldl tl (10 * 0 + digitVal c)
        simpa [natOfChars] using this
      rw [this, List.length_cons, pow_succ]
      nlinarith

theorem dropWhile_eq_self_of (p : Char → Bool) (l : List Char)
    (h : ∀ c ∈ l, p c = false) : l.dropWhile p = l := by
  cases l with
  | nil => rfl
  | cons c cs => simp [List.dropWhile_cons, h c (List.mem_cons_self c cs)]

theorem pyStrip_eq_self (l : List Char) (h : ∀ c ∈ l, isPySpace c = false) :
    pyStrip l = l := by
  unfold pyStrip
  rw [dropWhile_eq_self_of _ _ h,
    dropWhile_eq_self_of _ _ (fun c hc => h c (List.mem_reverse.1 hc)),
    List.reverse_reverse]

theorem takeWhile_digits (hd : List Char) (tl : List Char)
    (h : ∀ c ∈ hd, c.isDigit = true) :
    (hd ++ ':' :: tl).takeWhile Char.isDigit = hd ∧
      (hd ++ ':' :: tl).dropWhile Char.isDigit = ':' :: tl := by
  induction hd with
  | nil => constructor <;> simp [List.takeWhile_cons, List.dropWhile_cons]
  | cons c cs ih =>
      have hc : c.isDigit = true := h c (List.mem_cons_self c cs)
      have hcs := ih (fun x hx => h x (List.mem_cons_of_mem c hx))
      constructor
      · simp [List.takeWhile_cons, hc, hcs.1]
      · simp [List.dropWhile_cons, hc, hcs.2]

theorem timecodeParts_build (hd : List Char) (m1 m2 s1 s2 : Char) (tl : List Char)
    (hhd : hd ≠ []) (hda : ∀ c ∈ hd, c.isDigit = true)
    (hm1 : m1.isDigit = true) (hm2 : m2.isDigit = true)
    (hs1 : s1.isDigit = true) (hs2 : s2.isDigit = true) :
    timecodeParts (hd ++ ':' :: m1 :: m2 :: ':' :: s1 :: s2 :: tl) =
      (fracVal tl).map (fun fr =>
        (⟨natOfChars hd, 10 * digitVal m1 + digitVal m2,
          10 * digitVal s1 + digitVal s2, fr⟩ : TCParts)) := by
  unfold timecodeParts
  rw [(takeWhile_digits hd _ hda).2, (takeWhile_digits hd _ hda).1]
  show (if hd ≠ [] ∧ m1.isDigit = true ∧ m2.isDigit = true ∧
          s1.isDigit = true ∧ s2.isDigit = true then
        (fracVal tl).map (fun fr =>
          (⟨natOfChars hd, 10 * digitVal m1 + digitVal m2,
            10 * digitVal s1 + digitVal s2, fr⟩ : TCParts))
      else none) = _
  rw [if_pos ⟨hhd, hm1, hm2, hs1, hs2⟩]

/-! ## Decomposition lemmas for rendering -/

theorem pyTrunc_intCast (n : ℤ) : pyTrunc (n : ℚ) = n := by
  unfold pyTrunc
  split_ifs with h
  · exact Int.floor_intCast n
  · rw [← Int.cast_neg, Int.floor_intCast]
    omega

theorem padInt_natCast (w : ℕ) (n : ℕ) : padInt w ((n : ℕ) : ℤ) = padNat w n := by
  unfold padInt
  rw [if_neg (by omega), Int.natAbs_ofNat]

theorem floor_nat_add_fr (N : ℕ) {fr : ℚ} (h0 : 0 ≤ fr) (h1 : fr < 1) :
    ⌊(N : ℚ) + fr⌋ = N := by
  rw [add_comm, Int.floor_add_nat, Int.floor_eq_zero_iff.2 ⟨h0, h1⟩, zero_add]

theorem floor_div_add_fr (N D : ℕ) (hD : 0 < D) {fr : ℚ} (h0 : 0 ≤ fr) (h1 : fr < 1) :
    ⌊((N : ℚ) + fr) / (D : ℚ)⌋ = ((N / D : ℕ) : ℤ) := by
  have hDq : (0 : ℚ) < (D : ℚ) := by exact_mod_cast hD
  have hr : N % D < D := Nat.mod_lt N hD
  have key : (N : ℚ) = (D : ℚ) * ((N / D : ℕ) : ℚ) + ((N % D : ℕ) : ℚ) := by
    exact_mod_cast congrArg (Nat.cast : ℕ → ℚ) (Nat.div_add_mod N D).symm
  have hsplit : ((N : ℚ) + fr) / (D : ℚ) = ((N % D : ℕ) + fr) / (D : ℚ) + ((N / D : ℕ) : ℤ) := by
    rw [Int.cast_natCast, div_add' _ _ _ hDq.ne.symm]
    congr 1
    linarith [key]
  rw [hsplit, Int.floor_add_int]
  have hz : ⌊(((N % D : ℕ) : ℚ) + fr) / (D : ℚ)⌋ = 0 := by
    apply Int.floor_eq_zero_iff.2
    constructor
    · positivity
    · rw [div_lt_one hDq]
      have : ((N % D : ℕ) : ℚ) + 1 ≤ (D : ℚ) := by exact_mod_cast hr
      linarith
  rw [hz, zero_add]

theorem pyMod_nat_add_fr (N D : ℕ) (hD : 0 < D) {fr : ℚ} (h0 : 0 ≤ fr) (h1 : fr < 1) :
    pyMod ((N : ℚ) + fr) (D : ℚ) = ((N % D : ℕ) : ℚ) + fr := by
  unfold pyMod
  rw [floor_div_add_fr N D hD h0 h1, Int.cast_natCast]
  have key : (N : ℚ) = (D : ℚ) * ((N / D : ℕ) : ℚ) + ((N % D : ℕ) : ℚ) := by
    exact_mod_cast congrArg (Nat.cast : ℕ → ℚ) (Nat.div_add_mod N D).symm
  linarith [key]

theorem pyTrunc_natCast (n : ℕ) : pyTrunc ((n : ℕ) : ℚ) = (n : ℤ) := by
  have := pyTrunc_intCast (n : ℤ)
  simpa using this

theorem pyStrip_render (hd mc sc : List Char)
    (h1 : ∀ c ∈ hd, c.isDigit = true) (h2 : ∀ c ∈ mc, c.isDigit = true)
    (h3 : ∀ c ∈ sc, c.isDigit = true ∨ c = '.') :
    pyStrip (hd ++ ':' :: (mc ++ ':' :: sc)) = hd ++ ':' :: (mc ++ ':' :: sc) := by
  apply pyStrip_eq_self
  intro c hc
  rcases List.mem_append.1 hc with h | h
  · exact isPySpace_of_digit (h1 c h)
  · rcases List.mem_cons.1 h with rfl | h
    · decide
    · rcases List.mem_append.1 h with h | h
      · exact isPySpace_of_digit (h2 c h)
      · rcases List.mem_cons.1 h with rfl | h
        · decide
        · rcases h3 c h with hdig | rfl
          · exact isPySpace_of_digit hdig
          · decide

theorem parse_render_core (N F : ℕ) (fr : ℚ) (hF : (F : ℚ) = 1000 * fr)
    (h0 : 0 ≤ fr) (h1 : fr < 1) :
    to_seconds (seconds_to_timecode ((N : ℚ) + fr)) = some ((N : ℚ) + fr) := by
  have hFlt : F < 1000 := by
    have hq : (F : ℚ) < 1000 := by rw [hF]; linarith
    exact_mod_cast hq
  set q : ℚ := (N : ℚ) + fr with hqdef
  set hv : ℕ := N / 3600 with hhv
  set mv : ℕ := (N % 3600) / 60 with hmv
  set sv : ℕ := N % 60 with hsv
  have hmv60 : mv < 60 := by omega
  have hsv60 : sv < 60 := by omega
  have hH : ⌊q / 3600⌋ = (hv : ℤ) := by
    have := floor_div_add_fr N 3600 (by norm_num) h0 h1
    rw [hqdef, hhv]
    simpa using this
  have hMod3600 : pyMod q 3600 = ((N % 3600 : ℕ) : ℚ) + fr := by
    have := pyMod_nat_add_fr N 3600 (by norm_num) h0 h1
    rw [hqdef]
    simpa using this
  have hM : ⌊pyMod q 3600 / 60⌋ = (mv : ℤ) := by
    rw [hMod3600, hmv]
    have := floor_div_add_fr (N % 3600) 60 (by norm_num) h0 h1
    simpa using this
  have hS : pyMod q 60 = ((sv : ℕ) : ℚ) + fr := by
    have := pyMod_nat_add_fr N 60 (by norm_num) h0 h1
    rw [hqdef, hsv]
    simpa using this
  have hFr : pyMod (pyMod q 60) 1 = fr := by
    rw [hS]
    have := pyMod_nat_add_fr sv 1 (by norm_num) h0 h1
    simpa [Nat.mod_one] using this
  have hhd_ne : padNat 2 hv ≠ [] := by
    have hlp : (padNat 2 hv).length ≠ 0 := by
      rw [padNat_length]
      omega
    exact fun hnil => hlp (by rw [hnil]; rfl)
  have hm100 : mv < 10 ^ 2 := lt_of_lt_of_le hmv60 (by norm_num)
  have hs100 : sv < 10 ^ 2 := lt_of_lt_of_le hsv60 (by norm_num)
  obtain ⟨mA, mB, hmAB⟩ := List.length_eq_two.1 (padNat_length_of_lt hm100)
  have hmA : mA.isDigit = true := padNat_all_digit 2 mv mA (by rw [hmAB]; simp)
  have hmB : mB.isDigit = true := padNat_all_digit 2 mv mB (by rw [hmAB]; simp)
  have hmval : 10 * digitVal mA + digitVal mB = mv := by
    rw [← natOfChars_pair, ← hmAB, natOfChars_padNat]
  have hfinal : ∀ fr2 : ℚ, fr2 = fr →
      ((hv * 3600 + (10 * digitVal mA + digitVal mB) * 60 + (N % 60) : ℕ) : ℚ) + fr2 = q := by
    intro fr2 hfr2
    subst hfr2
    rw [hmval, hqdef]
    have hNq : hv * 3600 + mv * 60 + N % 60 = N := by omega
    have hc := congrArg (Nat.cast : ℕ → ℚ) hNq
    push_cast at hc
    push_cast
    linarith [hc]
  by_cases hfr0 : fr = 0
  · -- integer-seconds branch
    obtain ⟨sA, sB, hsAB⟩ := List.length_eq_two.1 (padNat_length_of_lt hs100)
    have hsA : sA.isDigit = true := padNat_all_digit 2 sv sA (by rw [hsAB]; simp)
    have hsB : sB.isDigit = true := padNat_all_digit 2 sv sB (by rw [hsAB]; simp)
    have hsval : 10 * digitVal sA + digitVal sB = sv := by
      rw [← natOfChars_pair, ← hsAB, natOfChars_padNat]
    have hrender : seconds_to_timecode_chars q =
        padNat 2 hv ++ ':' :: mA :: mB :: ':' :: sA :: sB :: [] := by
      unfold seconds_to_timecode_chars
      dsimp only
      rw [hFr, if_pos hfr0, hH, hM, hS, hfr0]
      rw [show (((sv : ℕ) : ℚ) + 0) = ((sv : ℕ) : ℚ) from by ring, pyTrunc_natCast]
      rw [padInt_natCast, padInt_natCast, padInt_natCast, hmAB, hsAB]
      simp
    show (timecodeParts (pyStrip (seconds_to_timecode_chars q))).map
        (fun p => ((p.hours * 3600 + p.minutes * 60 + p.secsInt : ℕ) : ℚ) + p.frac) = some q
    rw [hrender]
    rw [show (padNat 2 hv ++ ':' :: mA :: mB :: ':' :: sA :: sB :: [] : List Char) =
        padNat 2 hv ++ ':' :: ([mA, mB] ++ ':' :: [sA, sB]) from rfl]
    rw [pyStrip_render _ _ _ (padNat_all_digit 2 hv)
      (by intro c hc; rw [← hmAB] at hc; exact padNat_all_digit 2 mv c hc)
      (by intro c hc; rw [show ([sA, sB] : List Char) = padNat 2 sv from hsAB.symm] at hc
          exact Or.inl (padNat_all_digit 2 sv c hc))]
    rw [show (padNat 2 hv ++ ':' :: ([mA, mB] ++ ':' :: [sA, sB]) : List Char) =
        padNat 2 hv ++ ':' :: mA :: mB :: ':' :: sA :: sB :: [] from rfl]
    rw [timecodeParts_build (padNat 2 hv) mA mB sA sB []
      hhd_ne (padNat_all_digit 2 hv) hmA hmB hsA hsB]
    simp only [fracVal, Option.map_some']
    congr 1
    rw [natOfChars_padNat, hsval, hsv]
    exact hfinal 0 hfr0.symm
  · -- fractional-seconds branch
    have hms : rhe (1000 * pyMod q 60) = ((1000 * sv + F : ℕ) : ℤ) := by
      rw [hS]
      have harg : (1000 : ℚ) * (((sv : ℕ) : ℚ) + fr) = (((1000 * sv + F : ℕ) : ℤ) : ℚ) := by
        push_cast
        linarith [hF]
      rw [harg, rhe_intCast]
    have hip : (1000 * sv + F) / 1000 = sv := by omega
    have hrem : (1000 * sv + F) % 1000 = F := by omega
    have hF1000 : F < 10 ^ 3 := by norm_num; omega
    set pl : ℕ := (padNat 1 sv).length with hpl
    have hpl1 : 1 ≤ pl := by rw [hpl, padNat_length]; omega
    have hpl2 : pl ≤ 2 := by
      rw [hpl, padNat_length]
      have := charsOfNat_length_le hs100
      omega
    have hfmt : fmt063 (pyMod q 60) =
        (List.replicate (2 - pl) '0' ++ padNat 1 sv) ++ '.' :: padNat 3 F := by
      unfold fmt063
      dsimp only
      rw [hms]
      rw [show ((((1000 * sv + F : ℕ) : ℤ)).toNat) = 1000 * sv + F from by omega]
      rw [hip, hrem]
      rw [List.append_assoc]
      congr 2
      rw [List.length_append, List.length_cons, padNat_length_of_lt hF1000]
      rw [← hpl]
      omega
    set sint : List Char := List.replicate (2 - pl) '0' ++ padNat 1 sv with hsint
    have hsint_len : sint.length = 2 := by
      rw [hsint, List.length_append, List.length_replicate, ← hpl]
      omega
    have hsint_dig : ∀ c ∈ sint, c.isDigit = true := by
      intro c hc
      rw [hsint] at hc
      rcases List.mem_append.1 hc with h | h
      · rw [List.eq_of_mem_replicate h]; decide
      · exact padNat_all_digit 1 sv c h
    have hsint_val : natOfChars sint = sv := by
      rw [hsint, natOfChars_zeros_append, natOfChars_padNat]
    obtain ⟨sA, sB, hsAB⟩ := List.length_eq_two.1 hsint_len
    have hsA : sA.isDigit = true := hsint_dig sA (by rw [hsAB]; simp)
    have hsB : sB.isDigit = true := hsint_dig sB (by rw [hsAB]; simp)
    have hsval : 10 * digitVal sA + digitVal sB = sv := by
      rw [← natOfChars_pair, ← hsAB, hsint_val]
    have hrender : seconds_to_timecode_chars q =
        padNat 2 hv ++ ':' :: mA :: mB :: ':' :: sA :: sB :: '.' :: padNat 3 F := by
      unfold seconds_to_timecode_chars
      dsimp only
      rw [hFr, if_neg hfr0, hH, hM]
      rw [padInt_natCast, padInt_natCast, hmAB, hfmt, hsAB]
      simp
    show (timecodeParts (pyStrip (seconds_to_timecode_chars q))).map
        (fun p => ((p.hours * 3600 + p.minutes * 60 + p.secsInt : ℕ) : ℚ) + p.frac) = some q
    rw [hrender]
    rw [show (padNat 2 hv ++ ':' :: mA :: mB :: ':' :: sA :: sB :: '.' :: padNat 3 F : List Char) =
        padNat 2 hv ++ ':' :: ([mA, mB] ++ ':' :: (sA :: sB :: '.' :: padNat 3 F)) from rfl]
    rw [pyStrip_render _ _ _ (padNat_all_digit 2 hv)
      (by intro c hc; rw [← hmAB] at hc; exact padNat_all_digit 2 mv c hc)
      (by intro c hc
          rcases List.mem_cons.1 hc with rfl | hc2
          · exact Or.inl hsA
          · rcases List.mem_cons.1 hc2 with rfl | hc3
            · exact Or.inl hsB
            · rcases List.mem_cons.1 hc3 with rfl | hc4
              · exact Or.inr rfl
              · exact Or.inl (padNat_all_digit 3 F c hc4))]
    rw [show (padNat 2 hv ++ ':' :: ([mA, mB] ++ ':' :: (sA :: sB :: '.' :: padNat 3 F)) : List Char) =
        padNat 2 hv ++ ':' :: mA :: mB :: ':' :: sA :: sB :: ('.' :: padNat 3 F) from rfl]
    rw [timecodeParts_build (padNat 2 hv) mA mB sA sB ('.' :: padNat 3 F)
      hhd_ne (padNat_all_digit 2 hv) hmA hmB hsA hsB]
    have hfv : fracVal ('.' :: padNat 3 F) = some fr := by
      show (if 1 ≤ (padNat 3 F).length ∧ (padNat 3 F).length ≤ 3 ∧
              (padNat 3 F).all Char.isDigit = true then
            some ((natOfChars (padNat 3 F) : ℚ) / 10 ^ (padNat 3 F).length)
          else none) = some fr
      rw [if_pos]
      · congr 1
        rw [natOfChars_padNat, padNat_length_of_lt hF1000]
        rw [eq_comm, eq_div_iff (by norm_num : ((10 : ℚ)) ^ 3 ≠ 0)]
        push_cast
        linarith [hF]
      · refine ⟨?_, ?_, ?_⟩
        · rw [padNat_length_of_lt hF1000]
          norm_num
        · rw [padNat_length_of_lt hF1000]
        · exact List.all_eq_true.2 (fun c hc => padNat_all_digit 3 F c hc)
    rw [hfv]
    simp only [Option.map_some']
    congr 1
    rw [natOfChars_padNat, hsval, hsv]
    exact hfinal fr rfl

/-! ## Inversion lemmas for the parser -/

theorem fracVal_shape {tl : List Char} {fr : ℚ} (h : fracVal tl = some fr) :
    (tl = [] ∧ fr = 0) ∨
      (∃ ds, tl = '.' :: ds ∧ 1 ≤ ds.length ∧ ds.length ≤ 3 ∧
        (∀ c ∈ ds, c.isDigit = true) ∧ fr = (natOfChars ds : ℚ) / 10 ^ ds.length) := by
  unfold fracVal at h
  split at h
  · exact Or.inl ⟨rfl, by injection h with h2; exact h2.symm⟩
  · rename_i ds
    split at h
    · rename_i hcond
      refine Or.inr ⟨ds, rfl, hcond.1, hcond.2.1, List.all_eq_true.1 hcond.2.2, ?_⟩
      injection h with h2
      exact h2.symm
    · cases h
  · cases h

theorem fracVal_facts {tl : List Char} {fr : ℚ} (h : fracVal tl = some fr) :
    0 ≤ fr ∧ fr < 1 ∧ ∃ F : ℕ, (F : ℚ) = 1000 * fr := by
  rcases fracVal_shape h with ⟨_, rfl⟩ | ⟨ds, _, hlen1, hlen3, hdig, rfl⟩
  · exact ⟨le_refl 0, zero_lt_one, 0, by norm_num⟩
  · have hlt : natOfChars ds < 10 ^ ds.length := natOfChars_lt hdig
    have hpow : (0 : ℚ) < 10 ^ ds.length := by positivity
    refine ⟨by positivity, ?_, natOfChars ds * 10 ^ (3 - ds.length), ?_⟩
    · rw [div_lt_one hpow]
      exact_mod_cast hlt
    · push_cast
      rw [mul_comm (1000 : ℚ), div_mul_eq_mul_div, eq_comm, div_eq_iff hpow.ne.symm]
      rw [mul_assoc, ← pow_add]
      rw [show 3 - ds.length + ds.length = 3 from by omega]
      norm_num

theorem timecodeParts_inv {l : List Char} {p : TCParts}
    (h : timecodeParts l = some p) :
    ∃ hd m1 m2 s1 s2 tl fr,
      l = hd ++ ':' :: m1 :: m2 :: ':' :: s1 :: s2 :: tl
      ∧ hd ≠ [] ∧ (∀ c ∈ hd, c.isDigit = true)
      ∧ m1.isDigit = true ∧ m2.isDigit = true
      ∧ s1.isDigit = true ∧ s2.isDigit = true
      ∧ fracVal tl = some fr
      ∧ p = ⟨natOfChars hd, 10 * digitVal m1 + digitVal m2,
             10 * digitVal s1 + digitVal s2, fr⟩ := by
  unfold timecodeParts at h
  split at h
  · rename_i m1 m2 s1 s2 tl heq
    dsimp only at h
    split at h
    · rename_i hcond
      rcases Option.map_eq_some'.1 h with ⟨fr, hfv, hp⟩
      refine ⟨l.takeWhile Char.isDigit, m1, m2, s1, s2, tl, fr, ?_, hcond.1,
        (fun c hc => List.mem_takeWhile_imp hc), hcond.2.1, hcond.2.2.1,
        hcond.2.2.2.1, hcond.2.2.2.2, hfv, hp.symm⟩
      conv_lhs => rw [← List.takeWhile_append_dropWhile (p := Char.isDigit) (l := l)]
      rw [heq]
    · cases h
  · cases h

/-! ## Claim theorems: the timecode codec -/

/-- Modelled from the spec: the grammar `H+:MM:SS` or `H+:MM:SS.mmm` — a
nonempty run of hour digits, a colon, exactly two minute digits, a colon,
exactly two second digits, optionally followed by a point and one to three
fractional digits. -/
def specTimecodeGrammar (l : List Char) : Prop :=
  ∃ hd m1 m2 s1 s2 tl,
    l = hd ++ ':' :: m1 :: m2 :: ':' :: s1 :: s2 :: tl
    ∧ hd ≠ [] ∧ (∀ c ∈ hd, c.isDigit = true)
    ∧ m1.isDigit = true ∧ m2.isDigit = true
    ∧ s1.isDigit = true ∧ s2.isDigit = true
    ∧ (tl = [] ∨ ∃ ds, tl = '.' :: ds ∧ 1 ≤ ds.length ∧ ds.length ≤ 3 ∧
        (∀ c ∈ ds, c.isDigit = true))

/-- C5: after trimming whitespace, `to_seconds` succeeds exactly on the
strings of the grammar `H+:MM:SS(.mmm)`; in particular it fails on `""`,
`"1:2:3"` and `"-1:00:00"`, and does not reject `"12:60:00"`. -/
theorem to_seconds_grammar :
    (∀ s : String, (to_seconds s).isSome = true ↔ specTimecodeGrammar (pyStrip s.data))
    ∧ to_seconds "" = none
    ∧ to_seconds "1:2:3" = none
    ∧ to_seconds "-1:00:00" = none
    ∧ (to_seconds "12:60:00").isSome = true := by
  refine ⟨?_, by decide, by decide, by decide, by decide⟩
  intro s
  constructor
  · intro h
    rcases Option.isSome_iff_exists.1 h with ⟨q, hq⟩
    unfold to_seconds at hq
    rcases Option.map_eq_some'.1 hq with ⟨p, hp, _⟩
    rcases timecodeParts_inv hp with
      ⟨hd, m1, m2, s1, s2, tl, fr, hdecomp, hne, hdig, hm1, hm2, hs1, hs2, hfv, _⟩
    refine ⟨hd, m1, m2, s1, s2, tl, hdecomp, hne, hdig, hm1, hm2, hs1, hs2, ?_⟩
    rcases fracVal_shape hfv with ⟨rfl, _⟩ | ⟨ds, rfl, hl1, hl3, hdigs, _⟩
    · exact Or.inl rfl
    · exact Or.inr ⟨ds, rfl, hl1, hl3, hdigs⟩
  · rintro ⟨hd, m1, m2, s1, s2, tl, hdecomp, hne, hdig, hm1, hm2, hs1, hs2, hfrac⟩
    unfold to_seconds
    rw [hdecomp, timecodeParts_build hd m1 m2 s1 s2 tl hne hdig hm1 hm2 hs1 hs2]
    rcases hfrac with rfl | ⟨ds, rfl, hl1, hl3, hdigs⟩
    · simp [fracVal]
    · have hfv : fracVal ('.' :: ds) = some ((natOfChars ds : ℚ) / 10 ^ ds.length) := by
        show (if 1 ≤ ds.length ∧ ds.length ≤ 3 ∧ ds.all Char.isDigit = true then
              some ((natOfChars ds : ℚ) / 10 ^ ds.length)
            else none) = _
        rw [if_pos ⟨hl1, hl3, List.all_eq_true.2 hdigs⟩]
      rw [hfv]
      simp

/-- C7 (amended): in exact rational arithmetic, re-parsing the rendering of a
parsed timecode value returns exactly the parsed value, so the roundtrip
parse-format-parse is exact (in particular within one millisecond).  The
binary64 arithmetic of the program breaks the one-millisecond bound only at
astronomically large hour values (see the counterexample). -/
theorem to_seconds_roundtrip_exact (t : String) (q : ℚ) (h : to_seconds t = some q) :
    to_seconds (seconds_to_timecode q) = some q := by
  unfold to_seconds at h
  rcases Option.map_eq_some'.1 h with ⟨p, hp, hval⟩
  rcases timecodeParts_inv hp with
    ⟨hd, m1, m2, s1, s2, tl, fr, hdecomp, hne, hdig, hm1, hm2, hs1, hs2, hfv, hpeq⟩
  rcases fracVal_facts hfv with ⟨h0, h1, F, hF⟩
  subst hpeq
  dsimp only at hval
  rw [← hval]
  exact parse_render_core _ F fr hF h0 h1

/-- C7 witness: the roundtrip theorem applied to the timecode 12:60:00,
whose parsed value 46800 renders as 13:00:00 and re-parses to 46800. -/
theorem to_seconds_roundtrip_exact_witness :
    to_seconds "12:60:00" = some 46800
    ∧ to_seconds (seconds_to_timecode 46800) = some 46800 :=
  ⟨by decide, to_seconds_roundtrip_exact "12:60:00" 46800 (by decide)⟩

/-- C7 counterexample: under the program's binary64 float semantics the valid
timecode 100000000000001:59:59.999 parses to the double of exact value
360000000000007232; formatting it yields 100000000000002:00:32, which parses
back to 360000000000007168 — a deviation of 64 seconds, far beyond 1 ms. -/
theorem to_seconds_roundtrip_f64_counterexample :
    to_seconds_f64 "100000000000001:59:59.999" = some 360000000000007232
    ∧ seconds_to_timecode_f64 360000000000007232 = "100000000000002:00:32"
    ∧ to_seconds_f64 "100000000000002:00:32" = some 360000000000007168
    ∧ (1 / 1000 : ℚ) < |(360000000000007168 : ℚ) - 360000000000007232| := by
  refine ⟨by decide, by decide, by decide, by norm_num⟩

theorem padInt_of_nonneg {w : ℕ} {n : ℤ} (h : 0 ≤ n) : padInt w n = padNat w n.toNat := by
  unfold padInt
  rw [if_neg (by omega)]
  congr 1
  omega

/-- C10: on a nonnegative value, `seconds_to_timecode` produces hours padded
to at least two digits, two-digit minutes, and either two-digit whole seconds
(when the fractional part of `seconds % 60` is zero) or two-digit seconds
followed by a point and exactly three fractional digits (when it is
nonzero); in particular `seconds_to_timecode 0 = "00:00:00"` and
`seconds_to_timecode 3661.5 = "01:01:01.500"` (binary64 semantics). -/
theorem seconds_to_timecode_shape :
    (∀ q : ℚ, 0 ≤ q →
      ∃ hc mc sc : List Char,
        seconds_to_timecode_f64_chars q = hc ++ ':' :: mc ++ ':' :: sc
        ∧ 2 ≤ hc.length ∧ (∀ c ∈ hc, c.isDigit = true)
        ∧ mc.length = 2 ∧ (∀ c ∈ mc, c.isDigit = true)
        ∧ ((fmodQ (fmodQ q 60) 1 = 0 ∧ sc.length = 2 ∧ (∀ c ∈ sc, c.isDigit = true))
           ∨ (fmodQ (fmodQ q 60) 1 ≠ 0 ∧ ∃ si sf : List Char,
                sc = si ++ '.' :: sf ∧ si.length = 2 ∧ sf.length = 3
                ∧ (∀ c ∈ si, c.isDigit = true) ∧ (∀ c ∈ sf, c.isDigit = true))))
    ∧ seconds_to_timecode_f64 0 = "00:00:00"
    ∧ seconds_to_timecode_f64 (7323 / 2) = "01:01:01.500" := by
  refine ⟨?_, by decide, by decide⟩
  intro q hq
  have hh0 : 0 ≤ ffloordiv q 3600 := ffloordiv_nonneg hq (by norm_num)
  have hhT : 0 ≤ pyTrunc (ffloordiv q 3600) := by
    rw [pyTrunc_of_nonneg hh0]
    exact Int.floor_nonneg.2 hh0
  have hpadh : padInt 2 (pyTrunc (ffloordiv q 3600)) =
      padNat 2 (pyTrunc (ffloordiv q 3600)).toNat := padInt_of_nonneg hhT
  have hhlen : 2 ≤ (padNat 2 (pyTrunc (ffloordiv q 3600)).toNat).length := by
    rw [padNat_length]
    omega
  have hr0 : 0 ≤ fmodQ q 3600 := by
    rw [fmodQ_eq_pyMod hq (by norm_num)]
    exact pyMod_nonneg (by norm_num)
  have hrlt : fmodQ q 3600 < 3600 := by
    rw [fmodQ_eq_pyMod hq (by norm_num)]
    exact pyMod_lt (by norm_num)
  have hffm : ffloordiv (fmodQ q 3600) 60 = ((⌊fmodQ q 3600 / 60⌋ : ℤ) : ℚ) :=
    ffloordiv_small60 hr0 hrlt
  have hm0 : 0 ≤ ⌊fmodQ q 3600 / 60⌋ := Int.floor_nonneg.2 (div_nonneg hr0 (by norm_num))
  have hmlt : ⌊fmodQ q 3600 / 60⌋ < 60 := by
    refine Int.floor_lt.2 ?_
    rw [div_lt_iff₀ (by norm_num : (0:ℚ) < 60)]
    push_cast
    linarith
  have hmT : pyTrunc (ffloordiv (fmodQ q 3600) 60) = ⌊fmodQ q 3600 / 60⌋ := by
    rw [hffm, pyTrunc_intCast]
  have hpadm : padInt 2 (pyTrunc (ffloordiv (fmodQ q 3600) 60)) =
      padNat 2 (⌊fmodQ q 3600 / 60⌋).toNat := by
    rw [hmT]
    exact padInt_of_nonneg hm0
  have hmlen : (padNat 2 (⌊fmodQ q 3600 / 60⌋).toNat).length = 2 :=
    padNat_length_of_lt (by omega)
  have hs0 : 0 ≤ fmodQ q 60 := by
    rw [fmodQ_eq_pyMod hq (by norm_num)]
    exact pyMod_nonneg (by norm_num)
  have hslt : fmodQ q 60 < 60 := by
    rw [fmodQ_eq_pyMod hq (by norm_num)]
    exact pyMod_lt (by norm_num)
  by_cases hc0 : fmodQ (fmodQ q 60) 1 = 0
  · have hsT : pyTrunc (fmodQ q 60) = ⌊fmodQ q 60⌋ := pyTrunc_of_nonneg hs0
    have hsfl0 : 0 ≤ ⌊fmodQ q 60⌋ := Int.floor_nonneg.2 hs0
    have hsfllt : ⌊fmodQ q 60⌋ < 60 := Int.floor_lt.2 (by push_cast; linarith)
    have hpads : padInt 2 (pyTrunc (fmodQ q 60)) = padNat 2 (⌊fmodQ q 60⌋).toNat := by
      rw [hsT]
      exact padInt_of_nonneg hsfl0
    refine ⟨padNat 2 (pyTrunc (ffloordiv q 3600)).toNat,
            padNat 2 (⌊fmodQ q 3600 / 60⌋).toNat,
            padNat 2 (⌊fmodQ q 60⌋).toNat, ?_, hhlen, padNat_all_digit _ _,
            hmlen, padNat_all_digit _ _,
            Or.inl ⟨hc0, padNat_length_of_lt (by norm_num; omega), padNat_all_digit _ _⟩⟩
    unfold seconds_to_timecode_f64_chars
    dsimp only
    rw [if_pos hc0, hpadh, hpadm, hpads]
  · have hms0 : 0 ≤ rhe (1000 * fmodQ q 60) := rhe_nonneg (by positivity)
    have hmsle : rhe (1000 * fmodQ q 60) ≤ 60000 := by
      have hfl : ⌊(1000 : ℚ) * fmodQ q 60⌋ < 60000 := by
        refine Int.floor_lt.2 ?_
        push_cast
        linarith
      have := rhe_le_floor_add_one ((1000 : ℚ) * fmodQ q 60)
      omega
    set ms : ℕ := (rhe (1000 * fmodQ q 60)).toNat with hmsdef
    have hip100 : ms / 1000 < 10 ^ 2 := by norm_num; omega
    set pl : ℕ := (padNat 1 (ms / 1000)).length with hpl
    have hpl1 : 1 ≤ pl := by rw [hpl, padNat_length]; omega
    have hpl2 : pl ≤ 2 := by
      rw [hpl, padNat_length]
      have := charsOfNat_length_le hip100
      omega
    have hfmt : fmt063 (fmodQ q 60) =
        (List.replicate (2 - pl) '0' ++ padNat 1 (ms / 1000)) ++ '.' :: padNat 3 (ms % 1000) := by
      unfold fmt063
      dsimp only
      rw [← hmsdef]
      rw [List.append_assoc]
      congr 2
      rw [List.length_append, List.length_cons, padNat_length_of_lt
        (show ms % 1000 < 10 ^ 3 by norm_num; omega)]
      omega
    set sint : List Char := List.replicate (2 - pl) '0' ++ padNat 1 (ms / 1000) with hsint
    have hsint_len : sint.length = 2 := by
      rw [hsint, List.length_append, List.length_replicate, ← hpl]
      omega
    have hsint_dig : ∀ c ∈ sint, c.isDigit = true := by
      intro c hc
      rw [hsint] at hc
      rcases List.mem_append.1 hc with h | h
      · rw [List.eq_of_mem_replicate h]; decide
      · exact padNat_all_digit 1 (ms / 1000) c h
    refine ⟨padNat 2 (pyTrunc (ffloordiv q 3600)).toNat,
            padNat 2 (⌊fmodQ q 3600 / 60⌋).toNat,
            sint ++ '.' :: padNat 3 (ms % 1000), ?_, hhlen, padNat_all_digit _ _,
            hmlen, padNat_all_digit _ _,
            Or.inr ⟨hc0, sint, padNat 3 (ms % 1000), rfl, hsint_len,
              padNat_length_of_lt (show ms % 1000 < 10 ^ 3 by norm_num; omega),
              hsint_dig, padNat_all_digit _ _⟩⟩
    unfold seconds_to_timecode_f64_chars
    dsimp only
    rw [if_neg hc0, hpadh, hpadm, hfmt]

/-! ## Claim theorems: progress aggregation -/

/-- Bool test that a list of percents never decreases. -/
def nondecreasingB : List ℤ → Bool
  | [] => true
  | [_] => true
  | a :: b :: tl => decide (a ≤ b) && nondecreasingB (b :: tl)

/-- C1 counterexample: a stale snapshot lowers the emitted percent and a
duplicate snapshot re-emits the same percent: the updates (t,50,100),
(t,10,100), (t,10,100) emit 50, 10, 10 — the emitted sequence decreases and
repeats, so no monotonic latch or change-only filter exists. -/
theorem progress_emissions_regress :
    runUpdates [] [⟨"t", 50, 100⟩, ⟨"t", 10, 100⟩, ⟨"t", 10, 100⟩] = [50, 10, 10]
    ∧ nondecreasingB
        (runUpdates [] [⟨"t", 50, 100⟩, ⟨"t", 10, 100⟩, ⟨"t", 10, 100⟩]) = false := by
  refine ⟨by decide, by decide⟩

/-- C1 (amended): every update emits the freshly recomputed percent of the
post-update snapshot store unconditionally (once any phase is recorded):
the emission appended by one more update is exactly the percent of the
folded store, with no comparison against the previously emitted value. -/
theorem runUpdates_emits_recomputed (bs : Bars) (us : List Snapshot) (u : Snapshot) :
    runUpdates bs (us ++ [u]) =
      runUpdates bs us ++ callbackEmit (List.foldl applySnapshot bs (us ++ [u])) := by
  induction us generalizing bs with
  | nil => simp [runUpdates]
  | cons u2 us ih =>
      simp only [List.cons_append, runUpdates, List.foldl_cons, List.append_eq]
      rw [ih]
      simp [List.append_assoc]

/-- Modelled from the spec: the claimed aggregate formula
`floor(100 * completed / grand_total)` with the denominator defaulted to 1. -/
def specFloorPercent (c g : ℕ) : ℤ := ⌊((100 * c : ℕ) : ℚ) / ((max g 1 : ℕ) : ℚ)⌋

/-- C2: at the bar state {t: index 29, total 100} the code emits
`int(29/100 * 100) = 28` in binary64 arithmetic, while the specified formula
`floor(100 * 29 / 100)` gives 29 — the truncation of the float product falls
below the exact floor. -/
theorem percent_truncation_bug :
    runUpdates [] [⟨"t", 29, 100⟩] = [28]
    ∧ specFloorPercent (completed (applySnapshot [] ⟨"t", 29, 100⟩))
        (grandTotalRaw (applySnapshot [] ⟨"t", 29, 100⟩)) = 29 := by
  refine ⟨by decide, by decide⟩

/-! ## Claim theorems: the background worker -/

/-- C3: every run of the worker emits exactly one terminal notification; on
a clean pass it is `(True, "Done!")`, and on the first raising collaborator
call it is `(False, e)` with the error text verbatim — whether the source
fails to open, the subclip call raises, or the encode raises. -/
theorem trim_worker_single_terminal (w : TrimWorker) (env : TrimEnv) :
    (finishedEvents (w.run env)).length = 1
    ∧ (∀ e, env.openRes = .error e → finishedEvents (w.run env) = [(false, e)])
    ∧ (∀ c e, env.openRes = .ok c → env.subclipRes = .error e →
        finishedEvents (w.run env) = [(false, e)])
    ∧ (∀ c e, env.openRes = .ok c → env.subclipRes = .ok () → env.writeRes = .error e →
        finishedEvents (w.run env) = [(false, e)])
    ∧ (∀ c, env.openRes = .ok c → env.subclipRes = .ok () → env.writeRes = .ok () →
        finishedEvents (w.run env) = [(true, "Done!")]) := by
  rcases env with ⟨o, sres, wres⟩
  rcases o with e | c <;> rcases sres with e2 | u <;> rcases wres with e3 | v <;>
    simp [TrimWorker.run, finishedEvents]

/-- C3 witness: the clean-success scenario at a concrete worker and
environment, via the theorem. -/
theorem trim_worker_single_terminal_witness :
    finishedEvents (TrimWorker.run ⟨"in.mp4", "out.mp4", 0, 5⟩
      ⟨Except.ok ⟨120⟩, Except.ok (), Except.ok ()⟩) = [(true, "Done!")] :=
  (trim_worker_single_terminal ⟨"in.mp4", "out.mp4", 0, 5⟩
    ⟨Except.ok ⟨120⟩, Except.ok (), Except.ok ()⟩).2.2.2.2 ⟨120⟩ rfl rfl rfl

/-- C4: whenever the source opens, `subclipped` is invoked exactly once,
with the start time passed through unchanged and the end time clamped to
the clip duration (the minimum of the requested end and the duration). -/
theorem trim_worker_clamps_end (w : TrimWorker) (env : TrimEnv) (c : Clip)
    (h : env.openRes = .ok c) :
    subclipCalls (w.run env) = [(w.start_time, min w.end_time c.duration)] := by
  have hmin : (if c.duration < w.end_time then c.duration else w.end_time) =
      min w.end_time c.duration := by
    rcases lt_or_le c.duration w.end_time with hlt | hle
    · rw [if_pos hlt, min_eq_right hlt.le]
    · rw [if_neg (not_lt.2 hle), min_eq_left hle]
  rcases env with ⟨o, sres, wres⟩
  rcases o with e | c2
  · cases h
  · have : c2 = c := by injection h
    subst this
    rcases sres with e2 | u <;> rcases wres with e3 | v <;>
      simp [TrimWorker.run, subclipCalls, hmin]

/-- C4 witness: source duration 120 s, start 00:00:10 (= 10 s), end 00:05:00
(= 300 s): the collaborator is called with the interval [10, 120]. -/
theorem trim_worker_clamps_end_witness :
    to_seconds "00:00:10" = some 10 ∧ to_seconds "00:05:00" = some 300
    ∧ subclipCalls (TrimWorker.run ⟨"s.mp4", "d.mp4", 10, 300⟩
        ⟨Except.ok ⟨120⟩, Except.ok (), Except.ok ()⟩) = [(10, 120)] := by
  refine ⟨by decide, by decide, ?_⟩
  rw [trim_worker_clamps_end ⟨"s.mp4", "d.mp4", 10, 300⟩ _ ⟨120⟩ rfl]
  norm_num [min_def]

/-- C8 counterexample: the full success trace of a run — the source is
opened and the job emits its terminal notification, but no release of the
media handle ever appears in the trace. -/
theorem trim_worker_success_trace :
    TrimWorker.run ⟨"in.mp4", "out.mp4", 10, 120⟩
      ⟨Except.ok ⟨300⟩, Except.ok (), Except.ok ()⟩ =
    [TrimEv.openOk, TrimEv.subclip 10 120, TrimEv.writeFile "out.mp4",
     TrimEv.finished true "Done!"] := by decide

/-- C8 (amended): `run` releases the source handle on no exit path at all:
no trace of any run contains a close of the media handle — the code contains
no `close()` call; release is left to the garbage collector. -/
theorem trim_worker_never_releases (w : TrimWorker) (env : TrimEnv) :
    closeCalls (w.run env) = 0 := by
  rcases env with ⟨o, sres, wres⟩
  rcases o with e | c <;> rcases sres with e2 | u <;> rcases wres with e3 | v <;>
    simp [TrimWorker.run, closeCalls, List.filter]

/-! ## Claim theorems: the interactive window -/

/-- C6: with a valid existing source, valid timecodes and an EMPTY output
text, `start_trim` does not surface the missing-output error: since
`Path("")` (= `PosixPath(".")`) is truthy, the `if not output` check is dead
code, and a worker with destination "." is created and started. -/
theorem start_trim_missing_output_starts_worker :
    (start_trim (fun _ => true)
      ⟨some "a.mp4", "", "00:00:00", "00:00:01", true, 0, none⟩).1 =
      StartResult.started ⟨"a.mp4", ".", 0, 1⟩
    ∧ (start_trim (fun _ => true)
        ⟨some "a.mp4", "", "00:00:00", "00:00:01", true, 0, none⟩).2.worker =
        some ⟨"a.mp4", ".", 0, 1⟩
    ∧ (start_trim (fun _ => true)
        ⟨some "a.mp4", "", "00:00:00", "00:00:01", true, 0, none⟩).2.trim_enabled = false := by
  refine ⟨by decide, by decide, by decide⟩

/-- C9 counterexample: on a state whose worker slot is occupied (a job is
active and the button is disabled), calling `start_trim` does not fail with
any AlreadyRunning error — it creates and starts a second worker. -/
theorem start_trim_no_already_running_check :
    ((⟨some "a.mp4", "out.mp4", "00:00:00", "00:00:01", false, 0,
        some ⟨"a.mp4", "out.mp4", 0, 1⟩⟩ : MainWindow)).worker =
      some ⟨"a.mp4", "out.mp4", 0, 1⟩
    ∧ (start_trim (fun _ => true)
        ⟨some "a.mp4", "out.mp4", "00:00:00", "00:00:01", false, 0,
         some ⟨"a.mp4", "out.mp4", 0, 1⟩⟩).1 =
        StartResult.started ⟨"a.mp4", "out.mp4", 0, 1⟩ := by
  refine ⟨rfl, by decide⟩

/-- C9 (amended): no AlreadyRunning check exists; re-entry is prevented only
through the Trim button: a successful `start_trim` leaves the button
disabled, the terminal handler `on_finished` is the only place that
re-enables it, and clicking a disabled button does nothing. -/
theorem trim_button_gates_reentry :
    (∀ (fs : String → Bool) (st : MainWindow) (w : TrimWorker) (st2 : MainWindow),
        start_trim fs st = (StartResult.started w, st2) → st2.trim_enabled = false)
    ∧ (∀ (st : MainWindow) (ok : Bool) (m : String),
        (on_finished st ok m).trim_enabled = true)
    ∧ (∀ (fs : String → Bool) (st : MainWindow),
        st.trim_enabled = false → click_trim fs st = st) := by
  refine ⟨?_, ?_, ?_⟩
  · intro fs st w st2 h
    unfold start_trim at h
    repeat' split at h
    all_goals
      (injection h with h1 h2
       first
       | exact StartResult.noConfusion h1
       | (subst h2; rfl))
  · intro st ok m
    unfold on_finished
    split <;> rfl
  · intro fs st h
    unfold click_trim
    rw [h]
    simp

/-- C9 witness: a disabled-button state is left unchanged by a click, via
the theorem. -/
theorem trim_button_gates_reentry_witness :
    (⟨some "a.mp4", "out.mp4", "00:00:00", "00:00:01", false, 0, none⟩ :
        MainWindow).trim_enabled = false
    ∧ click_trim (fun _ => true)
        ⟨some "a.mp4", "out.mp4", "00:00:00", "00:00:01", false, 0, none⟩ =
      ⟨some "a.mp4", "out.mp4", "00:00:00", "00:00:01", false, 0, none⟩ :=
  ⟨rfl, trim_button_gates_reentry.2.2 (fun _ => true)
    ⟨some "a.mp4", "out.mp4", "00:00:00", "00:00:01", false, 0, none⟩ rfl⟩

/-- C10 witness: the shape theorem applied at 3661.5 seconds. -/
theorem seconds_to_timecode_shape_witness :
    (0 : ℚ) ≤ 7323 / 2 ∧
    ∃ hc mc sc : List Char,
      seconds_to_timecode_f64_chars (7323 / 2) = hc ++ ':' :: mc ++ ':' :: sc
      ∧ 2 ≤ hc.length ∧ (∀ c ∈ hc, c.isDigit = true)
      ∧ mc.length = 2 ∧ (∀ c ∈ mc, c.isDigit = true)
      ∧ ((fmodQ (fmodQ (7323 / 2) 60) 1 = 0 ∧ sc.length = 2 ∧
            (∀ c ∈ sc, c.isDigit = true))
         ∨ (fmodQ (fmodQ (7323 / 2) 60) 1 ≠ 0 ∧ ∃ si sf : List Char,
              sc = si ++ '.' :: sf ∧ si.length = 2 ∧ sf.length = 3
              ∧ (∀ c ∈ si, c.isDigit = true) ∧ (∀ c ∈ sf, c.isDigit = true))) :=
  ⟨by norm_num, seconds_to_timecode_shape.1 (7323 / 2) (by norm_num)⟩
